import Mathlib

/-!
Verification of the unified-diff hunk indexer and comment-span resolver of
the `lite_reviewer` package (extractor.py, poster.py, common.py).

The definitions below are shallow embeddings of the Python functions:
`split_hunks`, `parse_diff_hunk`, `build_position_table`, `extract_pr_diffs`
(its hunk-list computation), `_load_hunk_spans`, `_span_from_row_basic`,
`_span_from_position` and `choose_position_for_hunk`.  Python strings are
Lean `String`s, Python ints are `Nat`/`Int`, Python `None` is `Option.none`,
and a Python `dict` is an association list whose lookup takes the most
recently inserted binding for a key (Python assignment overwrites).
A raised exception is modelled as `Option.none` at the outermost level.
-/

namespace LiteReviewer

/-- One line inside a hunk body, as built by `parse_diff_hunk`:
`{"tag": ..., "text": ..., "old": ..., "new": ...}`. -/
structure DiffLine where
  tag : Char
  text : String
  old : Option Nat
  new : Option Nat
deriving DecidableEq

/-- One parsed `@@` hunk, as returned by `parse_diff_hunk`. -/
structure Hunk where
  header : String
  old_start : Nat
  old_len : Nat
  new_start : Nat
  new_len : Nat
  lines : List DiffLine
deriving DecidableEq

/-- The characters Python `str.splitlines` treats as line boundaries
(`\r\n` is additionally treated as a single boundary). -/
def isLineBreak (c : Char) : Bool :=
  c == '\n' || c == '\r' || c.toNat == 0x0b || c.toNat == 0x0c ||
  c.toNat == 0x1c || c.toNat == 0x1d || c.toNat == 0x1e ||
  c.toNat == 0x85 || c.toNat == 0x2028 || c.toNat == 0x2029

/-- Python `line.startswith("@@")`. -/
def startsWithAtAt (s : String) : Bool :=
  match s.data with
  | '@' :: '@' :: _ => true
  | _ => false

/-- Python `raw[0]` for a nonempty string (the default is never used). -/
def firstChar (s : String) : Char :=
  s.data.headD ' '

/-- Python `raw[1:]`: everything after the first character. -/
def strTail (s : String) : String :=
  String.mk (s.data.drop 1)

/-- Worker for `pySplitlines`; `acc` holds the current line reversed. -/
def splitlinesAux : List Char → List Char → List String
  | acc, [] => if acc.isEmpty then [] else [String.mk acc.reverse]
  | acc, '\r' :: '\n' :: rest => String.mk acc.reverse :: splitlinesAux [] rest
  | acc, c :: rest =>
    if isLineBreak c then String.mk acc.reverse :: splitlinesAux [] rest
    else splitlinesAux (c :: acc) rest

/-- Python `str.splitlines` (no terminator kept; no empty final line for a
trailing line break; the empty string gives `[]`). -/
def pySplitlines (s : String) : List String :=
  splitlinesAux [] s.data

/-- `split_hunks` (extractor.py): split a full patch into `@@ ... @@` blocks.
A line starting with `@@` begins a new block unless the current block is
empty; blocks are re-joined with `"\n"`.  An empty patch gives `[]`. -/
def splitHunks (patch : String) : List String :=
  if patch = "" then []
  else
    let step : List (List String) × List String → String → List (List String) × List String :=
      fun acc line =>
        if startsWithAtAt line && !acc.2.isEmpty then (acc.1 ++ [acc.2], [line])
        else (acc.1, acc.2 ++ [line])
    let r := (pySplitlines patch).foldl step ([], [])
    (if r.2.isEmpty then r.1 else r.1 ++ [r.2]).map (String.intercalate "\n")

/-- Value of a run of decimal digit characters, as Python `int(...)`. -/
def digitsToNat (ds : List Char) : Nat :=
  ds.foldl (fun a c => 10 * a + (c.toNat - 48)) 0

/-- Read a nonempty maximal run of decimal digits (the regex `\d+`). -/
def readDigits (cs : List Char) : Option (Nat × List Char) :=
  let ds := cs.takeWhile Char.isDigit
  if ds.isEmpty then none else some (digitsToNat ds, cs.dropWhile Char.isDigit)

/-- Read the optional length group `(?:,(\d+))?`: taken exactly when a comma
followed by at least one digit is present. -/
def readOptLen : List Char → Option Nat × List Char
  | ',' :: cs =>
    match readDigits cs with
    | some (n, rest) => (some n, rest)
    | none => (none, ',' :: cs)
  | cs => (none, cs)

/-- The hunk-header regex `HUNK_RE = ^@@ -(\d+)(?:,(\d+))? \+(\d+)(?:,(\d+))? @@`
applied as a prefix match (`re.match`); a missing length defaults to 1
(`int(m.group(2) or "1")`).  The `.strip()` the source applies first is a
no-op here: the header line starts with `@@` and the pattern is a prefix
match, so surrounding whitespace never matters. -/
def parseHunkHeader (s : String) : Option (Nat × Nat × Nat × Nat) :=
  match s.data with
  | '@' :: '@' :: ' ' :: '-' :: cs =>
    match readDigits cs with
    | none => none
    | some (os, cs1) =>
      let r1 := readOptLen cs1
      match r1.2 with
      | ' ' :: '+' :: cs3 =>
        match readDigits cs3 with
        | none => none
        | some (ns, cs4) =>
          let r2 := readOptLen cs4
          match r2.2 with
          | ' ' :: '@' :: '@' :: _ => some (os, r1.1.getD 1, ns, r2.1.getD 1)
          | _ => none
      | _ => none
  | _ => none

/-- The body loop of `parse_diff_hunk`: walk the lines after the header with
the two counters `old_no`, `new_no`.  An empty line is a context line with
empty text; otherwise the first character selects the tag, and the text is
the remainder for a `+`, `-` or space marker and the whole line otherwise
(`text = raw[1:] if tag in "+- " else raw`). -/
def parseLines (oldNo newNo : Nat) : List String → List DiffLine
  | [] => []
  | raw :: rest =>
    if raw = "" then
      ⟨' ', "", some oldNo, some newNo⟩ :: parseLines (oldNo + 1) (newNo + 1) rest
    else if firstChar raw = '+' then
      ⟨'+', strTail raw, none, some newNo⟩ :: parseLines oldNo (newNo + 1) rest
    else if firstChar raw = '-' then
      ⟨'-', strTail raw, some oldNo, none⟩ :: parseLines (oldNo + 1) newNo rest
    else
      ⟨' ', if firstChar raw = ' ' then strTail raw else raw, some oldNo, some newNo⟩ ::
        parseLines (oldNo + 1) (newNo + 1) rest

/-- `parse_diff_hunk` (extractor.py): parse one block into a structured hunk.
Empty input or a block with no `@@` line or an unparseable header gives
`none`; the body is `lines[1:]` of the block. -/
def parseDiffHunk (diffText : String) : Option Hunk :=
  if diffText = "" then none
  else
    let lines := pySplitlines diffText
    match lines.find? (fun l => startsWithAtAt l) with
    | none => none
    | some headerLine =>
      match parseHunkHeader headerLine with
      | none => none
      | some (os, ol, ns, nl) =>
        some ⟨headerLine, os, ol, ns, nl, parseLines os ns (lines.drop 1)⟩

/-- The hunks `build_position_table` walks: each block of the patch that
parses (`if not parsed: continue` skips the rest). -/
def parsedHunks (patch : String) : List Hunk :=
  (splitHunks patch).filterMap parseDiffHunk

/-- The persisted hunk list of `extract_pr_diffs`:
`[parse_diff_hunk(h) for h in split_hunks(patch or "") if h]`.
Note the comprehension filters on the chunk string `h`, not on the parse
result, so a non-empty block that fails to parse contributes a `none`. -/
def extractHunks (patch : String) : List (Option Hunk) :=
  ((splitHunks patch).filter (fun h => h != "")).map parseDiffHunk

/-- Inner loop of `build_position_table` over one hunk's lines: `pos += 1`
for every line, and `pos_table[new] = pos` for a line with tag `+` or space
carrying a new line number.  The table is the list of assignments in
order (Python dict assignment overwrites: lookup takes the last one). -/
def lineWalk : List (Nat × Nat) × Nat → List DiffLine → List (Nat × Nat) × Nat
  | acc, [] => acc
  | (tbl, pos), ln :: rest =>
    lineWalk
      (if ln.tag == '+' || ln.tag == ' ' then
        match ln.new with
        | some n => tbl ++ [(n, pos + 1)]
        | none => tbl
      else tbl, pos + 1) rest

/-- Outer loop of `build_position_table` over the parsed hunks. -/
def tableWalk : List (Nat × Nat) × Nat → List Hunk → List (Nat × Nat) × Nat
  | acc, [] => acc
  | acc, h :: rest => tableWalk (lineWalk acc h.lines) rest

/-- `build_position_table` (extractor.py): map new line numbers to unified
diff positions, as the ordered list of dict assignments. -/
def buildPositionTable (patch : String) : List (Nat × Nat) :=
  if patch = "" then [] else (tableWalk ([], 0) (parsedHunks patch)).1

/-- One record of `_load_hunk_spans` (poster.py). -/
structure HunkSpan where
  start_pos : Nat
  end_pos : Nat
  new_start : Nat
  new_len : Nat
  old_start : Nat
  old_len : Nat
deriving DecidableEq

/-- Per-file loop of `_load_hunk_spans`: hunks with an empty line list are
skipped; otherwise `start_pos = pos + 1`, `pos += len(lines)`,
`end_pos = pos`, copying the hunk's four header bounds. -/
def loadSpansFrom (pos : Nat) : List Hunk → List HunkSpan
  | [] => []
  | h :: rest =>
    if h.lines.isEmpty then loadSpansFrom pos rest
    else
      ⟨pos + 1, pos + h.lines.length, h.new_start, h.new_len, h.old_start, h.old_len⟩ ::
        loadSpansFrom (pos + h.lines.length) rest

/-- Sequence a persisted hunk list: `none` when any entry is `None`
(the Python loop then raises `AttributeError` on `h.get`). -/
def seqHunks : List (Option Hunk) → Option (List Hunk)
  | [] => some []
  | none :: _ => none
  | some h :: rest => (seqHunks rest).map (fun l => h :: l)

/-- `_load_hunk_spans` (poster.py) for one file's persisted hunk list:
`none` models the `AttributeError` raised on a `None` entry. -/
def loadHunkSpans (ohs : List (Option Hunk)) : Option (List HunkSpan) :=
  (seqHunks ohs).map (loadSpansFrom 0)

/-- `side ∈ {LEFT, RIGHT}` of a resolved comment span. -/
inductive Side
  | left
  | right
deriving DecidableEq

/-- The resolved `{path, start_line, end_line, side}` record. -/
structure CommentSpan where
  path : String
  start_line : Int
  end_line : Int
  side : Side
deriving DecidableEq

/-- The old-bounds fallback branch shared by `_span_from_row_basic`:
`old_start is not None and old_len and old_len > 0`. -/
def spanFromOldBounds (path : String) (os ol : Option Int) : Option CommentSpan :=
  match os, ol with
  | some a, some l => if 0 < l then some ⟨path, a, a + l - 1, Side.left⟩ else none
  | _, _ => none

/-- `_span_from_row_basic` (poster.py): `none` for an empty path; otherwise
prefer the new side when `new_start` is an int and `new_len > 0`
(`new_len` must also be truthy, which for an int is implied by `> 0`),
else fall back to the old side, else `none`. -/
def spanFromRowBasic (path : String) (ns nl os ol : Option Int) : Option CommentSpan :=
  if path = "" then none
  else
    match ns, nl with
    | some a, some l =>
      if 0 < l then some ⟨path, a, a + l - 1, Side.right⟩
      else spanFromOldBounds path os ol
    | _, _ => spanFromOldBounds path os ol

/-- Side selection of `_span_from_position` once a containing span is found
(the `isinstance` checks hold: the span fields are ints by construction). -/
def spanFromSpanBounds (path : String) (hs : HunkSpan) : Option CommentSpan :=
  if 0 < hs.new_len then
    some ⟨path, hs.new_start, (hs.new_start : Int) + hs.new_len - 1, Side.right⟩
  else if 0 < hs.old_len then
    some ⟨path, hs.old_start, (hs.old_start : Int) + hs.old_len - 1, Side.left⟩
  else none

/-- `_span_from_position` (poster.py): a non-int `chosen_position` gives
`none`; otherwise scan the file's spans for the first one whose inclusive
`[start_pos, end_pos]` range contains it and resolve from its bounds
(returning `none` from inside the loop if both lengths are unusable). -/
def spanFromPosition (path : String) (chosen : Option Int)
    (fileSpans : List HunkSpan) : Option CommentSpan :=
  match chosen with
  | none => none
  | some c =>
    match fileSpans.find? (fun hs => decide ((hs.start_pos : Int) ≤ c) &&
        decide (c ≤ (hs.end_pos : Int))) with
    | none => none
    | some hs => spanFromSpanBounds path hs

/-- Python `a or b` for optional ints: `a` unless it is `None` or `0`. -/
def pyOrInt : Option Int → Option Int → Option Int
  | none, b => b
  | some v, b => if v = 0 then b else some v

/-- `file_position_table.get(str(new_no)) or file_position_table.get(new_no)`
in `choose_position_for_hunk`, abstracted over the two dict getters. -/
def lookupPos (getS getI : Nat → Option Int) (n : Nat) : Option Int :=
  pyOrInt (getS n) (getI n)

/-- `choose_position_for_hunk` (common.py): the position of the first `+`
line whose new line number resolves through the table, else the first
space line's, else `none`. -/
def choosePositionForHunk (h : Hunk) (getS getI : Nat → Option Int) : Option Int :=
  match h.lines.findSome?
      (fun ln => if ln.tag == '+' then ln.new.bind (lookupPos getS getI) else none) with
  | some p => some p
  | none =>
    h.lines.findSome?
      (fun ln => if ln.tag == ' ' then ln.new.bind (lookupPos getS getI) else none)

/-- Fuelled little-endian decimal digits of `n` (empty for 0). -/
def decDigitsAux : Nat → Nat → List Char
  | 0, _ => []
  | fuel + 1, n =>
    if n = 0 then [] else Nat.digitChar (n % 10) :: decDigitsAux fuel (n / 10)

/-- Python `str(n)` for a natural number: its decimal string form, the key
shape produced by JSON serialisation of a dict with int keys. -/
def natToDecStr (n : Nat) : String :=
  if n = 0 then "0" else String.mk (decDigitsAux (n + 1) n).reverse

/-- Lookup in a dict with natural-number keys; the last binding wins, as
Python dict assignment overwrites. -/
def dictGetNat (t : List (Nat × Int)) (n : Nat) : Option Int :=
  (t.reverse.find? (fun e => e.1 == n)).map (fun e => e.2)

/-- Lookup in a dict with string keys; the last binding wins. -/
def dictGetStr (t : List (String × Int)) (s : String) : Option Int :=
  (t.reverse.find? (fun e => e.1 == s)).map (fun e => e.2)

/-- Replace every key of a table by its decimal-string form, as JSONL
persistence and reload does to an int-keyed dict. -/
def stringifyKeys (t : List (Nat × Int)) : List (String × Int) :=
  t.map (fun e => (natToDecStr e.1, e.2))

/-- View a position table built by `build_position_table` with int values. -/
def tableToIntVals (t : List (Nat × Nat)) : List (Nat × Int) :=
  t.map (fun e => (e.1, (e.2 : Int)))

/-- `choose_position_for_hunk` against an in-memory int-keyed table:
`get(str(n))` misses, `get(n)` hits. -/
def chooseWithIntTable (h : Hunk) (t : List (Nat × Int)) : Option Int :=
  choosePositionForHunk h (fun _ => none) (dictGetNat t)

/-- `choose_position_for_hunk` against a JSON-reloaded string-keyed table:
`get(str(n))` hits, `get(n)` misses. -/
def chooseWithStrTable (h : Hunk) (t : List (String × Int)) : Option Int :=
  choosePositionForHunk h (fun n => dictGetStr t (natToDecStr n)) (fun _ => none)

/-- The sequence of positions the running counter of `build_position_table`
assigns to the body lines of one hunk, starting after `pos`. -/
def posWalk (pos : Nat) : List DiffLine → List Nat
  | [] => []
  | _ :: rest => (pos + 1) :: posWalk (pos + 1) rest

/-- The positions assigned across all hunks of a file, in assignment order. -/
def assignedPositionsFrom (pos : Nat) : List Hunk → List Nat
  | [] => []
  | h :: rest => posWalk pos h.lines ++ assignedPositionsFrom (pos + h.lines.length) rest

/-- All positions the running counter of `build_position_table` assigns for
a patch. -/
def assignedPositions (patch : String) : List Nat :=
  if patch = "" then [] else assignedPositionsFrom 0 (parsedHunks patch)

/-- The spans of `_load_hunk_spans` occupy consecutive, nonempty position
ranges starting right after `c`. -/
def Chained : Nat → List HunkSpan → Prop
  | _, [] => True
  | c, s :: rest => s.start_pos = c + 1 ∧ s.start_pos ≤ s.end_pos ∧ Chained s.end_pos rest

/-! ## Helper lemmas about the position walk -/

theorem lineWalk_fst : ∀ (lines : List DiffLine) (tbl : List (Nat × Nat)) (pos : Nat),
    (lineWalk (tbl, pos) lines).1 = tbl ++ (lineWalk ([], pos) lines).1 := by
  intro lines
  induction lines with
  | nil => intro tbl pos; simp [lineWalk]
  | cons ln rest ih =>
    intro tbl pos
    obtain ⟨tag, text, old, new⟩ := ln
    simp only [lineWalk]
    by_cases hc : (tag == '+' || tag == ' ') = true
    · rw [if_pos hc, if_pos hc]
      cases new with
      | none => rw [ih tbl (pos + 1)]
      | some n =>
        rw [ih (tbl ++ [(n, pos + 1)]) (pos + 1), ih ([] ++ [(n, pos + 1)]) (pos + 1)]
        simp [List.append_assoc]
    · rw [if_neg hc, if_neg hc]
      rw [ih tbl (pos + 1)]

theorem lineWalk_snd : ∀ (lines : List DiffLine) (tbl : List (Nat × Nat)) (pos : Nat),
    (lineWalk (tbl, pos) lines).2 = pos + lines.length := by
  intro lines
  induction lines with
  | nil => intro tbl pos; simp [lineWalk]
  | cons ln rest ih =>
    intro tbl pos
    obtain ⟨tag, text, old, new⟩ := ln
    simp only [lineWalk]
    rw [ih]
    rw [List.length_cons]
    omega

theorem tableWalk_fst : ∀ (hs : List Hunk) (tbl : List (Nat × Nat)) (pos : Nat),
    (tableWalk (tbl, pos) hs).1 = tbl ++ (tableWalk ([], pos) hs).1 := by
  intro hs
  induction hs with
  | nil => intro tbl pos; simp [tableWalk]
  | cons h rest ih =>
    intro tbl pos
    simp only [tableWalk]
    have h1 : lineWalk (tbl, pos) h.lines =
        ((lineWalk (tbl, pos) h.lines).1, (lineWalk (tbl, pos) h.lines).2) := rfl
    rw [h1, lineWalk_fst, lineWalk_snd]
    have h2 : lineWalk ([], pos) h.lines =
        ((lineWalk ([], pos) h.lines).1, (lineWalk ([], pos) h.lines).2) := rfl
    rw [h2, lineWalk_snd]
    rw [ih, ih ((lineWalk ([], pos) h.lines).1)]
    simp

/-- Every table assignment made while walking one hunk's lines lands in the
position range the lines occupy, and comes from a line carrying that new
line number. -/
theorem lineWalk_mem : ∀ (lines : List DiffLine) (pos : Nat) (a : Nat × Nat),
    a ∈ (lineWalk ([], pos) lines).1 →
    pos + 1 ≤ a.2 ∧ a.2 ≤ pos + lines.length ∧ ∃ ln ∈ lines, ln.new = some a.1 := by
  intro lines
  induction lines with
  | nil => intro pos a ha; simp [lineWalk] at ha
  | cons ln rest ih =>
    intro pos a ha
    obtain ⟨tag, text, old, new⟩ := ln
    simp only [lineWalk] at ha
    by_cases hc : (tag == '+' || tag == ' ') = true
    · rw [if_pos hc] at ha
      cases new with
      | none =>
        obtain ⟨h1, h2, ln', hln', hnew⟩ := ih (pos + 1) a ha
        exact ⟨by omega, by rw [List.length_cons]; omega,
          ln', List.mem_cons_of_mem _ hln', hnew⟩
      | some n =>
        change a ∈ (lineWalk ([(n, pos + 1)], pos + 1) rest).1 at ha
        rw [lineWalk_fst] at ha
        rcases List.mem_append.1 ha with hl | hr
        · rw [List.mem_singleton] at hl
          subst hl
          refine ⟨by omega, by rw [List.length_cons]; omega, ⟨tag, text, old, some n⟩,
            List.mem_cons_self _ _, rfl⟩
        · obtain ⟨h1, h2, ln', hln', hnew⟩ := ih (pos + 1) a hr
          exact ⟨by omega, by rw [List.length_cons]; omega,
            ln', List.mem_cons_of_mem _ hln', hnew⟩
    · rw [if_neg hc] at ha
      obtain ⟨h1, h2, ln', hln', hnew⟩ := ih (pos + 1) a ha
      exact ⟨by omega, by rw [List.length_cons]; omega,
        ln', List.mem_cons_of_mem _ hln', hnew⟩

/-- Every assignment `build_position_table` makes falls inside the span
that `_load_hunk_spans` records for the hunk of the line it came from. -/
theorem tableWalk_in_spans : ∀ (hs : List Hunk) (pos : Nat) (a : Nat × Nat),
    a ∈ (tableWalk ([], pos) hs).1 →
    ∃ sp ∈ loadSpansFrom pos hs, ∃ h ∈ hs,
      sp.start_pos ≤ a.2 ∧ a.2 ≤ sp.end_pos ∧
      sp.new_start = h.new_start ∧ sp.new_len = h.new_len ∧
      sp.old_start = h.old_start ∧ sp.old_len = h.old_len ∧
      ∃ ln ∈ h.lines, ln.new = some a.1 := by
  intro hs
  induction hs with
  | nil => intro pos a ha; simp [tableWalk] at ha
  | cons h rest ih =>
    intro pos a ha
    simp only [tableWalk] at ha
    have hlw : lineWalk ([], pos) h.lines =
        ((lineWalk ([], pos) h.lines).1, pos + h.lines.length) := by
      rw [← lineWalk_snd h.lines [] pos]
    rw [hlw, tableWalk_fst] at ha
    rcases List.mem_append.1 ha with hl | hr
    · obtain ⟨h1, h2, ln', hln', hnew⟩ := lineWalk_mem h.lines pos a hl
      have hne : h.lines.isEmpty = false := by
        cases hq : h.lines with
        | nil =>
          exfalso
          rw [hq, List.length_nil] at h2
          omega
        | cons x xs => simp [hq]
      refine ⟨⟨pos + 1, pos + h.lines.length, h.new_start, h.new_len, h.old_start, h.old_len⟩,
        ?_, h, List.mem_cons_self _ _, h1, h2, rfl, rfl, rfl, rfl, ln', hln', hnew⟩
      simp only [loadSpansFrom, hne, Bool.false_eq_true, if_false]
      exact List.mem_cons_self _ _
    · obtain ⟨sp, hsp, h', hh', rest'⟩ := ih (pos + h.lines.length) a hr
      refine ⟨sp, ?_, h', List.mem_cons_of_mem _ hh', rest'⟩
      simp only [loadSpansFrom]
      by_cases he : h.lines.isEmpty
      · have : h.lines.length = 0 := by
          cases hq : h.lines with
          | nil => rfl
          | cons x xs => rw [hq] at he; simp at he
        rw [if_pos he]
        rw [this, Nat.add_zero] at hsp
        exact hsp
      · rw [if_neg he]
        exact List.mem_cons_of_mem _ hsp

/-- `_load_hunk_spans` produces consecutive nonempty spans. -/
theorem chained_loadSpansFrom : ∀ (hs : List Hunk) (c : Nat),
    Chained c (loadSpansFrom c hs) := by
  intro hs
  induction hs with
  | nil => intro c; simp [loadSpansFrom, Chained]
  | cons h rest ih =>
    intro c
    simp only [loadSpansFrom]
    by_cases he : h.lines.isEmpty
    · rw [if_pos he]; exact ih c
    · rw [if_neg he]
      have hpos : 1 ≤ h.lines.length := by
        cases hq : h.lines with
        | nil => rw [hq] at he; simp at he
        | cons x xs => simp [hq]
      refine ⟨rfl, ?_, ih (c + h.lines.length)⟩
      show c + 1 ≤ c + h.lines.length
      omega

/-- In a chained span list every span starts after `c` and is nonempty. -/
theorem chained_lb : ∀ (l : List HunkSpan) (c : Nat), Chained c l →
    ∀ s ∈ l, c < s.start_pos ∧ s.start_pos ≤ s.end_pos := by
  intro l
  induction l with
  | nil => intro c _ s hs; simp at hs
  | cons t rest ih =>
    intro c hch s hs
    obtain ⟨h1, h2, h3⟩ := hch
    rcases List.mem_cons.1 hs with rfl | hmem
    · exact ⟨by omega, h2⟩
    · have := ih t.end_pos h3 s hmem
      omega

/-- In a chained span list, the first span containing a position is the
(unique) member span containing it. -/
theorem chained_find : ∀ (l : List HunkSpan) (c0 : Nat) (hs : HunkSpan) (c : Int),
    Chained c0 l → hs ∈ l → (hs.start_pos : Int) ≤ c → c ≤ (hs.end_pos : Int) →
    l.find? (fun s => decide ((s.start_pos : Int) ≤ c) &&
      decide (c ≤ (s.end_pos : Int))) = some hs := by
  intro l
  induction l with
  | nil => intro c0 hs c _ hmem _ _; simp at hmem
  | cons t rest ih =>
    intro c0 hs c hch hmem hlo hhi
    obtain ⟨h1, h2, h3⟩ := hch
    rcases List.mem_cons.1 hmem with rfl | hmem'
    · apply List.find?_cons_of_pos
      simp [hlo, hhi]
    · have hgt := (chained_lb rest t.end_pos h3 hs hmem').1
      have hcgt : (t.end_pos : Int) < c := by
        have : (t.end_pos : Int) < (hs.start_pos : Int) := by exact_mod_cast hgt
        omega
      rw [List.find?_cons_of_neg]
      · exact ih t.end_pos hs c h3 hmem' hlo hhi
      · simp only [Bool.and_eq_true, decide_eq_true_eq, not_and]
        intro _
        omega

/-- Adjacent spans in a chained list meet end to start. -/
theorem chained_adjacent : ∀ (l : List HunkSpan) (c : Nat), Chained c l →
    ∀ (i : Nat) (s t : HunkSpan), l[i]? = some s → l[i + 1]? = some t →
    t.start_pos = s.end_pos + 1 := by
  intro l
  induction l with
  | nil => intro c _ i s t hp _; simp at hp
  | cons u rest ih =>
    intro c hch i s t hp hq
    obtain ⟨h1, h2, h3⟩ := hch
    cases i with
    | zero =>
      rw [List.getElem?_cons_zero] at hp
      rw [List.getElem?_cons_succ] at hq
      injection hp with hp
      subst hp
      cases rest with
      | nil => simp at hq
      | cons v rest' =>
        rw [show (0 : Nat) = 0 from rfl] at hq
        rw [List.getElem?_cons_zero] at hq
        injection hq with hq
        subst hq
        exact h3.1
    | succ j =>
      rw [List.getElem?_cons_succ] at hp
      rw [List.getElem?_cons_succ] at hq
      exact ih u.end_pos h3 j s t hp hq

/-- The span list pairs up with the hunks that have a nonempty line list:
same length, and each span's width is its hunk's line count (its bounds
are copied from that hunk). -/
theorem loadSpansFrom_zip : ∀ (hs : List Hunk) (c : Nat),
    (loadSpansFrom c hs).length = (hs.filter (fun h => !h.lines.isEmpty)).length ∧
    ∀ (i : Nat) (s : HunkSpan) (h : Hunk), (loadSpansFrom c hs)[i]? = some s →
      (hs.filter (fun h => !h.lines.isEmpty))[i]? = some h →
      s.end_pos + 1 - s.start_pos = h.lines.length ∧
      s.new_start = h.new_start ∧ s.new_len = h.new_len ∧
      s.old_start = h.old_start ∧ s.old_len = h.old_len := by
  intro hs
  induction hs with
  | nil => intro c; constructor <;> simp [loadSpansFrom]
  | cons h rest ih =>
    intro c
    by_cases he : h.lines.isEmpty
    · have hf : (h :: rest).filter (fun h => !h.lines.isEmpty) =
          rest.filter (fun h => !h.lines.isEmpty) := by
        simp [List.filter_cons, he]
      simp only [loadSpansFrom, if_pos he, hf]
      exact ih c
    · have hf : (h :: rest).filter (fun h => !h.lines.isEmpty) =
          h :: rest.filter (fun h => !h.lines.isEmpty) := by
        simp [List.filter_cons, he]
      simp only [loadSpansFrom, if_neg he, hf]
      refine ⟨by simp [List.length_cons, (ih (c + h.lines.length)).1], ?_⟩
      intro i s h' hp hq
      cases i with
      | zero =>
        rw [List.getElem?_cons_zero] at hp hq
        injection hp with hp
        injection hq with hq
        subst hp
        subst hq
        refine ⟨?_, rfl, rfl, rfl, rfl⟩
        show c + h.lines.length + 1 - (c + 1) = h.lines.length
        omega
      | succ j =>
        rw [List.getElem?_cons_succ] at hp hq
        exact (ih (c + h.lines.length)).2 j s h' hp hq

/-- The running counter hands out consecutive positions over one hunk. -/
theorem posWalk_eq_range : ∀ (lines : List DiffLine) (pos : Nat),
    posWalk pos lines = List.range' (pos + 1) lines.length := by
  intro lines
  induction lines with
  | nil => intro pos; simp [posWalk]
  | cons ln rest ih =>
    intro pos
    simp only [posWalk, List.length_cons]
    rw [ih (pos + 1), List.range'_succ]

/-- The running counter hands out consecutive positions across all hunks. -/
theorem assignedPositionsFrom_eq_range : ∀ (hs : List Hunk) (pos : Nat),
    assignedPositionsFrom pos hs =
      List.range' (pos + 1) ((hs.map (fun h => h.lines.length)).sum) := by
  intro hs
  induction hs with
  | nil => intro pos; simp [assignedPositionsFrom]
  | cons h rest ih =>
    intro pos
    simp only [assignedPositionsFrom, List.map_cons, List.sum_cons]
    rw [posWalk_eq_range, ih (pos + h.lines.length)]
    have h1 : pos + h.lines.length + 1 = pos + 1 + h.lines.length := by omega
    rw [h1]
    have h2 := List.range'_append (pos + 1) h.lines.length
      ((rest.map (fun h => h.lines.length)).sum) 1
    simp only [Nat.one_mul, Nat.mul_one] at h2
    rw [h2]
    congr 1
    omega

/-- Sequencing succeeds exactly on lists with no `none`, giving the
underlying values. -/
theorem seqHunks_map_eq : ∀ (cs : List String) (l : List Hunk),
    seqHunks (cs.map parseDiffHunk) = some l → l = cs.filterMap parseDiffHunk := by
  intro cs
  induction cs with
  | nil => intro l h; simp [seqHunks] at h; simp [h.symm]
  | cons c rest ih =>
    intro l h
    simp only [List.map_cons] at h
    cases hp : parseDiffHunk c with
    | none => rw [hp] at h; simp [seqHunks] at h
    | some hk =>
      rw [hp] at h
      simp only [seqHunks] at h
      cases hs : seqHunks (rest.map parseDiffHunk) with
      | none => rw [hs] at h; simp at h
      | some l' =>
        rw [hs] at h
        simp at h
        rw [List.filterMap_cons, hp, ← h, ih l' hs]

/-- The empty block never parses. -/
theorem parseDiffHunk_empty : parseDiffHunk "" = none := rfl

/-- Dropping empty chunks does not change which hunks parse. -/
theorem filterMap_parse_filter : ∀ (cs : List String),
    ((cs.filter (fun h => h != "")).filterMap parseDiffHunk) =
      cs.filterMap parseDiffHunk := by
  intro cs
  induction cs with
  | nil => rfl
  | cons c rest ih =>
    by_cases hc : c = ""
    · subst hc
      simp only [List.filter_cons, List.filterMap_cons, parseDiffHunk_empty]
      simp [ih]
    · have hb : (c != "") = true := by simp [hc]
      simp only [List.filter_cons, hb, if_true, List.filterMap_cons]
      cases parseDiffHunk c with
      | none => exact ih
      | some hk => rw [ih]

/-- A successful `_load_hunk_spans` over the persisted hunks computes the
spans of the parsed hunks of the patch. -/
theorem loadHunkSpans_extract (p : String) (spans : List HunkSpan) :
    loadHunkSpans (extractHunks p) = some spans →
    spans = loadSpansFrom 0 (parsedHunks p) := by
  intro h
  unfold loadHunkSpans at h
  cases hs : seqHunks (extractHunks p) with
  | none => rw [hs] at h; simp at h
  | some l =>
    rw [hs] at h
    simp at h
    unfold extractHunks at hs
    have := seqHunks_map_eq _ l hs
    rw [← h, this, filterMap_parse_filter]
    rfl

/-- The old line numbers handed out by the body walk are consecutive from
the starting counter, over the lines that carry one. -/
theorem parseLines_old_range : ∀ (body : List String) (o n : Nat),
    (parseLines o n body).filterMap DiffLine.old =
      List.range' o ((parseLines o n body).countP (fun ln => ln.old.isSome)) := by
  intro body
  induction body with
  | nil => intro o n; simp [parseLines]
  | cons raw rest ih =>
    intro o n
    simp only [parseLines]
    split_ifs with h1 h2 h3 <;>
      simp [List.filterMap_cons, List.countP_cons, ih, List.range'_succ]

/-- The new line numbers handed out by the body walk are consecutive from
the starting counter, over the lines that carry one. -/
theorem parseLines_new_range : ∀ (body : List String) (o n : Nat),
    (parseLines o n body).filterMap DiffLine.new =
      List.range' n ((parseLines o n body).countP (fun ln => ln.new.isSome)) := by
  intro body
  induction body with
  | nil => intro o n; simp [parseLines]
  | cons raw rest ih =>
    intro o n
    simp only [parseLines]
    split_ifs with h1 h2 h3 <;>
      simp [List.filterMap_cons, List.countP_cons, ih, List.range'_succ]

/-- Tag discipline of the body walk: `+` lines carry only a new number,
`-` lines only an old number, space lines both. -/
theorem parseLines_tags : ∀ (body : List String) (o n : Nat),
    ∀ ln ∈ parseLines o n body,
      (ln.tag = '+' → ln.old = none ∧ ln.new.isSome = true) ∧
      (ln.tag = '-' → ln.new = none ∧ ln.old.isSome = true) ∧
      (ln.tag = ' ' → ln.old.isSome = true ∧ ln.new.isSome = true) := by
  intro body
  induction body with
  | nil => intro o n ln hln; simp [parseLines] at hln
  | cons raw rest ih =>
    intro o n ln hln
    simp only [parseLines] at hln
    split_ifs at hln with h1 h2 h3 <;>
      rcases List.mem_cons.1 hln with rfl | hmem <;>
      first
        | exact ih _ _ ln hmem
        | (refine ⟨?_, ?_, ?_⟩ <;> intro htag <;> simp_all)

/-! ## Decimal strings (Python `str(int)`) -/

theorem digitChar_toNat : ∀ m : Nat, m < 10 → (Nat.digitChar m).toNat = 48 + m := by
  intro m h
  interval_cases m <;> rfl

/-- Little-endian decimal valuation, the inverse of `decDigitsAux`. -/
def decVal : List Char → Nat
  | [] => 0
  | c :: cs => (c.toNat - 48) + 10 * decVal cs

theorem decVal_decDigitsAux : ∀ (fuel n : Nat), n < fuel →
    decVal (decDigitsAux fuel n) = n := by
  intro fuel
  induction fuel with
  | zero => intro n h; omega
  | succ f ih =>
    intro n h
    by_cases h0 : n = 0
    · simp [decDigitsAux, h0, decVal]
    · simp only [decDigitsAux, if_neg h0, decVal]
      have hlt : n / 10 < f := by
        have : n / 10 < n := Nat.div_lt_self (Nat.pos_of_ne_zero h0) (by omega)
        omega
      rw [ih (n / 10) hlt, digitChar_toNat (n % 10) (Nat.mod_lt n (by omega))]
      omega

theorem decVal_natToDecStr : ∀ n : Nat, decVal (natToDecStr n).data.reverse = n := by
  intro n
  by_cases h0 : n = 0
  · subst h0; rfl
  · unfold natToDecStr
    rw [if_neg h0]
    show decVal (decDigitsAux (n + 1) n).reverse.reverse = n
    rw [List.reverse_reverse]
    exact decVal_decDigitsAux (n + 1) n (by omega)

theorem natToDecStr_inj {a b : Nat} (h : natToDecStr a = natToDecStr b) : a = b := by
  have h2 := congrArg (fun s : String => decVal s.data.reverse) h
  simp only [decVal_natToDecStr] at h2
  exact h2

theorem find?_pred_congr : ∀ {α : Type} (l : List α) (p q : α → Bool),
    (∀ x ∈ l, p x = q x) → l.find? p = l.find? q := by
  intro α l
  induction l with
  | nil => intro p q _; rfl
  | cons x rest ih =>
    intro p q hpq
    have hx := hpq x (List.mem_cons_self _ _)
    by_cases hp : p x = true
    · rw [List.find?_cons_of_pos _ hp, List.find?_cons_of_pos _ (hx ▸ hp)]
    · rw [List.find?_cons_of_neg _ hp, List.find?_cons_of_neg _ (by rw [← hx]; exact hp)]
      exact ih p q (fun y hy => hpq y (List.mem_cons_of_mem _ hy))

/-- Looking a key up through its decimal-string form in the stringified
table agrees with looking it up directly in the int-keyed table. -/
theorem dictGetStr_stringify (t : List (Nat × Int)) (n : Nat) :
    dictGetStr (stringifyKeys t) (natToDecStr n) = dictGetNat t n := by
  unfold dictGetStr dictGetNat stringifyKeys
  rw [← List.map_reverse, List.find?_map]
  rw [find?_pred_congr (t.reverse) _ (fun e => e.1 == n) ?_]
  · cases t.reverse.find? (fun e => e.1 == n) <;> simp
  · intro e _
    simp only [Function.comp]
    by_cases he : e.1 = n
    · simp [he]
    · have hne : natToDecStr e.1 ≠ natToDecStr n := fun hc => he (natToDecStr_inj hc)
      simp [he, hne]

/-! ## Claim theorems -/

/-- Claim C1 (code_bug evaluation): for a patch with one malformed header
block between two well-formed ones, the persisted hunk sequence of
`extract_pr_diffs` has three entries — the malformed block is kept as a
`None` placeholder, not dropped — and `_load_hunk_spans` then fails on the
`None` entry.  The two well-formed blocks do parse, in order. -/
theorem c1_malformed_block_evaluation :
    (extractHunks "@@ -1,1 +1,1 @@\n a\n@@ bad header @@\n b\n@@ -2,2 +2,2 @@\n c").map
        Option.isSome = [true, false, true] ∧
    ((extractHunks "@@ -1,1 +1,1 @@\n a\n@@ bad header @@\n b\n@@ -2,2 +2,2 @@\n c").filterMap
        id).map Hunk.header = ["@@ -1,1 +1,1 @@", "@@ -2,2 +2,2 @@"] ∧
    loadHunkSpans
      (extractHunks "@@ -1,1 +1,1 @@\n a\n@@ bad header @@\n b\n@@ -2,2 +2,2 @@\n c") = none := by
  refine ⟨by decide, by decide, by decide⟩

/-- Claim C2: recomputing the position table and the hunk-span table is
deterministic (they are pure functions of the patch), and every position
`build_position_table` assigns to a line carrying a new line number lies
inside the `[start_pos, end_pos]` range `_load_hunk_spans` records for that
line's hunk (the span with that hunk's bounds, one of whose lines carries
the assigned new line number). -/
theorem c2_determinism_and_span_consistency (p : String) (spans : List HunkSpan)
    (hload : loadHunkSpans (extractHunks p) = some spans) :
    buildPositionTable p = buildPositionTable p ∧
    loadHunkSpans (extractHunks p) = loadHunkSpans (extractHunks p) ∧
    ∀ a ∈ buildPositionTable p, ∃ sp ∈ spans, ∃ h ∈ parsedHunks p,
      sp.start_pos ≤ a.2 ∧ a.2 ≤ sp.end_pos ∧
      sp.new_start = h.new_start ∧ sp.new_len = h.new_len ∧
      sp.old_start = h.old_start ∧ sp.old_len = h.old_len ∧
      ∃ ln ∈ h.lines, ln.new = some a.1 := by
  refine ⟨rfl, rfl, ?_⟩
  intro a ha
  have hspans := loadHunkSpans_extract p spans hload
  by_cases h0 : p = ""
  · rw [h0] at ha
    simp [buildPositionTable] at ha
  · unfold buildPositionTable at ha
    rw [if_neg h0] at ha
    rw [hspans]
    exact tableWalk_in_spans (parsedHunks p) 0 a ha

/-- Witness for C2 on the patch `@@ -1,1 +1,2 @@\n a\n+b`: the assignment
of position 2 to new line 2 lies in the single recorded span `[1, 2]`. -/
theorem c2_witness :
    ∃ sp ∈ [(⟨1, 2, 1, 2, 1, 1⟩ : HunkSpan)], ∃ h ∈ parsedHunks "@@ -1,1 +1,2 @@\n a\n+b",
      sp.start_pos ≤ 2 ∧ 2 ≤ sp.end_pos ∧
      sp.new_start = h.new_start ∧ sp.new_len = h.new_len ∧
      sp.old_start = h.old_start ∧ sp.old_len = h.old_len ∧
      ∃ ln ∈ h.lines, ln.new = some 2 :=
  (c2_determinism_and_span_consistency "@@ -1,1 +1,2 @@\n a\n+b" [⟨1, 2, 1, 2, 1, 1⟩]
    (by decide)).2.2 (2, 2) (by decide)

/-- Claim C3: for a recorded hunk span with `new_len > 0`, resolving via the
position-lookup fallback at any chosen position inside its
`[start_pos, end_pos]` range gives the same CommentSpan as resolving the
row directly from that hunk's bounds. -/
theorem c3_roundtrip_span_consistency (p path : String) (spans : List HunkSpan)
    (hs : HunkSpan) (c : Int)
    (hload : loadHunkSpans (extractHunks p) = some spans)
    (hmem : hs ∈ spans) (hnl : 0 < hs.new_len) (hpath : path ≠ "")
    (hlo : (hs.start_pos : Int) ≤ c) (hhi : c ≤ (hs.end_pos : Int)) :
    spanFromPosition path (some c) spans =
      spanFromRowBasic path (some (hs.new_start : Int)) (some (hs.new_len : Int))
        (some (hs.old_start : Int)) (some (hs.old_len : Int)) := by
  have hspans := loadHunkSpans_extract p spans hload
  have hch : Chained 0 spans := by
    rw [hspans]; exact chained_loadSpansFrom _ 0
  have hred : spanFromPosition path (some c) spans =
      (match spans.find? (fun u => decide ((u.start_pos : Int) ≤ c) &&
          decide (c ≤ (u.end_pos : Int))) with
        | none => none
        | some u => spanFromSpanBounds path u) := rfl
  rw [hred, chained_find spans 0 hs c hch hmem hlo hhi]
  have hnl' : (0 : Int) < (hs.new_len : Int) := by exact_mod_cast hnl
  unfold spanFromSpanBounds spanFromRowBasic
  rw [if_neg hpath]
  simp only [if_pos hnl, if_pos hnl']

/-- Witness for C3 on the patch `@@ -4,1 +7,2 @@\n a\n+b` with chosen
position 2 inside its span `[1, 2]`. -/
theorem c3_witness :
    spanFromPosition "f.py" (some 2) [⟨1, 2, 7, 2, 4, 1⟩] =
      spanFromRowBasic "f.py" (some 7) (some 2) (some 4) (some 1) :=
  c3_roundtrip_span_consistency "@@ -4,1 +7,2 @@\n a\n+b" "f.py" [⟨1, 2, 7, 2, 4, 1⟩]
    ⟨1, 2, 7, 2, 4, 1⟩ 2 (by decide) (by decide) (by decide) (by decide)
    (by decide) (by decide)

/-- Claim C4 counterexample: a hunk can declare `new_len == 0` and
`old_len > 0` in its header and still contain an Added line; the
representative-position picker then returns a position, not none.  The
hunk parsed from `@@ -1,2 +1,0 @@\n+x` has `new_len = 0`, `old_len = 2`,
and the picker (over that patch's own reloaded position table) returns
position 1. -/
theorem c4_counterexample :
    (parsedHunks "@@ -1,2 +1,0 @@\n+x").map (fun h =>
      (h.new_len, h.old_len,
        chooseWithStrTable h
          (stringifyKeys (tableToIntVals (buildPositionTable "@@ -1,2 +1,0 @@\n+x"))))) =
      [(0, 2, some 1)] ∧ (some 1 : Option Int) ≠ none := by
  refine ⟨by decide, by decide⟩

/-- Claim C4 (amended): span resolution for a row with `new_len == 0` and
`old_len > 0` produces the LEFT span over the old bounds; and the
representative-position picker returns none for a hunk that is a pure
deletion in the sense that every body line is a Removed line. -/
theorem c4_pure_deletion_amended (path : String) (ns os ol : Int) (hk : Hunk)
    (getS getI : Nat → Option Int)
    (hpath : path ≠ "") (hol : 0 < ol)
    (hdel : ∀ ln ∈ hk.lines, ln.tag = '-') :
    spanFromRowBasic path (some ns) (some 0) (some os) (some ol) =
      some ⟨path, os, os + ol - 1, Side.left⟩ ∧
    choosePositionForHunk hk getS getI = none := by
  constructor
  · unfold spanFromRowBasic spanFromOldBounds
    rw [if_neg hpath]
    simp [hol]
  · unfold choosePositionForHunk
    have h1 : hk.lines.findSome?
        (fun ln => if ln.tag == '+' then ln.new.bind (lookupPos getS getI) else none) =
        none := by
      rw [List.findSome?_eq_none_iff]
      intro ln hln
      have ht := hdel ln hln
      simp [ht]
    have h2 : hk.lines.findSome?
        (fun ln => if ln.tag == ' ' then ln.new.bind (lookupPos getS getI) else none) =
        none := by
      rw [List.findSome?_eq_none_iff]
      intro ln hln
      have ht := hdel ln hln
      simp [ht]
    rw [h1, h2]

/-- Witness for the amended C4: a one-line pure deletion hunk. -/
theorem c4_witness :
    spanFromRowBasic "a.py" (some 9) (some 0) (some 4) (some 2) =
      some ⟨"a.py", 4, 5, Side.left⟩ ∧
    choosePositionForHunk ⟨"@@ -4,2 +9,0 @@", 4, 2, 9, 0, [⟨'-', "gone", some 4, none⟩]⟩
      (fun _ => none) (fun _ => none) = none :=
  c4_pure_deletion_amended "a.py" 9 4 2
    ⟨"@@ -4,2 +9,0 @@", 4, 2, 9, 0, [⟨'-', "gone", some 4, none⟩]⟩
    (fun _ => none) (fun _ => none) (by decide) (by decide) (by decide)

/-- Claim C5 (code_bug evaluation): the empty patch gives an empty hunk
sequence and empty position table, but a non-empty patch with no `@@`
markers gives the one-entry sequence `[None]`, not an empty sequence
(the comprehension's `if h` filter tests the chunk string, not the parse
result); `_load_hunk_spans` then fails on the `None` entry.  The position
table is empty in both cases. -/
theorem c5_no_marker_evaluation :
    extractHunks "" = [] ∧ buildPositionTable "" = [] ∧
    extractHunks "Binary files a/x and b/x differ" = [none] ∧
    buildPositionTable "Binary files a/x and b/x differ" = [] ∧
    loadHunkSpans (extractHunks "Binary files a/x and b/x differ") = none := by
  refine ⟨by decide, by decide, by decide, by decide, by decide⟩

/-- Claim C6: the running counter assigns positions exactly `1..N` over the
`N` body lines of the parsed hunks, and the recorded spans are contiguous:
the first starts at 1, each next starts right after the previous ends, and
each span's width is its hunk's body line count (hunks with no body lines
are skipped and occupy no positions). -/
theorem c6_position_coverage_span_contiguity (p : String) (spans : List HunkSpan)
    (hload : loadHunkSpans (extractHunks p) = some spans) :
    assignedPositions p =
      List.range' 1 (((parsedHunks p).map (fun h => h.lines.length)).sum) ∧
    (∀ s, spans.head? = some s → s.start_pos = 1) ∧
    (∀ (i : Nat) (s t : HunkSpan), spans[i]? = some s → spans[i + 1]? = some t →
      t.start_pos = s.end_pos + 1) ∧
    spans.length = ((parsedHunks p).filter (fun h => !h.lines.isEmpty)).length ∧
    (∀ (i : Nat) (s : HunkSpan) (h : Hunk), spans[i]? = some s →
      ((parsedHunks p).filter (fun h => !h.lines.isEmpty))[i]? = some h →
      s.end_pos + 1 - s.start_pos = h.lines.length ∧
      s.new_start = h.new_start ∧ s.new_len = h.new_len ∧
      s.old_start = h.old_start ∧ s.old_len = h.old_len) := by
  have hspans := loadHunkSpans_extract p spans hload
  refine ⟨?_, ?_, ?_, ?_, ?_⟩
  · unfold assignedPositions
    by_cases h0 : p = ""
    · rw [if_pos h0]
      have hph : parsedHunks p = [] := by rw [h0]; rfl
      rw [hph]
      rfl
    · rw [if_neg h0, assignedPositionsFrom_eq_range]
  · intro s hs
    rw [hspans] at hs
    have hch := chained_loadSpansFrom (parsedHunks p) 0
    cases hl : loadSpansFrom 0 (parsedHunks p) with
    | nil => rw [hl] at hs; simp at hs
    | cons u rest =>
      rw [hl] at hs hch
      rw [List.head?_cons] at hs
      injection hs with hs
      subst hs
      exact hch.1
  · intro i s t hp hq
    rw [hspans] at hp hq
    exact chained_adjacent _ 0 (chained_loadSpansFrom _ 0) i s t hp hq
  · rw [hspans]
    exact (loadSpansFrom_zip (parsedHunks p) 0).1
  · intro i s h hp hq
    rw [hspans] at hp
    exact (loadSpansFrom_zip (parsedHunks p) 0).2 i s h hp hq

/-- Witness for C6 on a two-hunk patch with 1 + 3 body lines. -/
theorem c6_witness :
    assignedPositions "@@ -1,1 +1,1 @@\n x\n@@ -5,2 +5,2 @@\n y\n-z\n+w" =
      List.range' 1
        (((parsedHunks "@@ -1,1 +1,1 @@\n x\n@@ -5,2 +5,2 @@\n y\n-z\n+w").map
          (fun h => h.lines.length)).sum) ∧
    HunkSpan.start_pos ⟨2, 4, 5, 2, 5, 2⟩ = HunkSpan.end_pos ⟨1, 1, 1, 1, 1, 1⟩ + 1 := by
  have h := c6_position_coverage_span_contiguity
    "@@ -1,1 +1,1 @@\n x\n@@ -5,2 +5,2 @@\n y\n-z\n+w"
    [⟨1, 1, 1, 1, 1, 1⟩, ⟨2, 4, 5, 2, 5, 2⟩] (by decide)
  exact ⟨h.1, h.2.2.1 0 ⟨1, 1, 1, 1, 1, 1⟩ ⟨2, 4, 5, 2, 5, 2⟩ (by decide) (by decide)⟩

/-- Claim C7: within a parsed hunk, the old line numbers over the lines
carrying one are exactly `old_start, old_start+1, ...`, the new line
numbers are exactly `new_start, new_start+1, ...`, Added lines carry no
old number, Removed lines carry no new number, and Context lines carry
both. -/
theorem c7_line_number_monotonicity (s : String) (h : Hunk)
    (hp : parseDiffHunk s = some h) :
    h.lines.filterMap DiffLine.old =
      List.range' h.old_start (h.lines.countP (fun ln => ln.old.isSome)) ∧
    h.lines.filterMap DiffLine.new =
      List.range' h.new_start (h.lines.countP (fun ln => ln.new.isSome)) ∧
    ∀ ln ∈ h.lines,
      (ln.tag = '+' → ln.old = none ∧ ln.new.isSome = true) ∧
      (ln.tag = '-' → ln.new = none ∧ ln.old.isSome = true) ∧
      (ln.tag = ' ' → ln.old.isSome = true ∧ ln.new.isSome = true) := by
  by_cases hs0 : s = ""
  · rw [hs0] at hp
    exact absurd hp (by simp [parseDiffHunk])
  · unfold parseDiffHunk at hp
    rw [if_neg hs0] at hp
    have hp' : (match (pySplitlines s).find? (fun l => startsWithAtAt l) with
        | none => none
        | some headerLine =>
          match parseHunkHeader headerLine with
          | none => none
          | some (os, ol, ns, nl) =>
            some (⟨headerLine, os, ol, ns, nl,
              parseLines os ns ((pySplitlines s).drop 1)⟩ : Hunk)) = some h := hp
    clear hp
    cases hfind : (pySplitlines s).find? (fun l => startsWithAtAt l) with
    | none => rw [hfind] at hp'; exact absurd hp' (by simp)
    | some hd =>
      rw [hfind] at hp'
      have hp2 : (match parseHunkHeader hd with
          | none => none
          | some (os, ol, ns, nl) =>
            some (⟨hd, os, ol, ns, nl,
              parseLines os ns ((pySplitlines s).drop 1)⟩ : Hunk)) = some h := hp'
      clear hp'
      cases hhdr : parseHunkHeader hd with
      | none => rw [hhdr] at hp2; exact absurd hp2 (by simp)
      | some q =>
        rw [hhdr] at hp2
        obtain ⟨os, ol, ns, nl⟩ := q
        have hp3 : some (⟨hd, os, ol, ns, nl,
            parseLines os ns ((pySplitlines s).drop 1)⟩ : Hunk) = some h := hp2
        rw [Option.some_inj] at hp3
        subst hp3
        exact ⟨parseLines_old_range _ os ns, parseLines_new_range _ os ns,
          parseLines_tags _ os ns⟩

/-- Witness for C7 on the hunk parsed from
`@@ -3,2 +5,3 @@\n a\n+b\n-c\n d`. -/
theorem c7_witness :
    ([⟨' ', "a", some 3, some 5⟩, ⟨'+', "b", none, some 6⟩,
      ⟨'-', "c", some 4, none⟩, ⟨' ', "d", some 5, some 7⟩] :
        List DiffLine).filterMap DiffLine.old = List.range' 3 3 ∧
    ([⟨' ', "a", some 3, some 5⟩, ⟨'+', "b", none, some 6⟩,
      ⟨'-', "c", some 4, none⟩, ⟨' ', "d", some 5, some 7⟩] :
        List DiffLine).filterMap DiffLine.new = List.range' 5 3 := by
  have h := c7_line_number_monotonicity "@@ -3,2 +5,3 @@\n a\n+b\n-c\n d"
    ⟨"@@ -3,2 +5,3 @@", 3, 2, 5, 3,
      [⟨' ', "a", some 3, some 5⟩, ⟨'+', "b", none, some 6⟩,
       ⟨'-', "c", some 4, none⟩, ⟨' ', "d", some 5, some 7⟩]⟩ (by decide)
  exact ⟨h.1, h.2.1⟩

/-- Claim C8: the boundary scenario.  The patch
`@@ -1,2 +1,3 @@\n context\n-removed\n+added1\n+added2\n` parses to one
hunk with bounds `(1,2,1,3)`; the position table maps new line 1 to 1,
2 to 3 and 3 to 4; and the picker (over the JSON-reloaded string-keyed
table, as the generator uses it) selects the first Added line, new line 2,
returning position 3. -/
theorem c8_boundary_scenario :
    parsedHunks "@@ -1,2 +1,3 @@\n context\n-removed\n+added1\n+added2\n" =
      [⟨"@@ -1,2 +1,3 @@", 1, 2, 1, 3,
        [⟨' ', "context", some 1, some 1⟩, ⟨'-', "removed", some 2, none⟩,
         ⟨'+', "added1", none, some 2⟩, ⟨'+', "added2", none, some 3⟩]⟩] ∧
    buildPositionTable "@@ -1,2 +1,3 @@\n context\n-removed\n+added1\n+added2\n" =
      [(1, 1), (2, 3), (3, 4)] ∧
    (parsedHunks "@@ -1,2 +1,3 @@\n context\n-removed\n+added1\n+added2\n").map
      (fun h => chooseWithStrTable h (stringifyKeys (tableToIntVals
        (buildPositionTable "@@ -1,2 +1,3 @@\n context\n-removed\n+added1\n+added2\n")))) =
      [some 3] := by
  refine ⟨by decide, by decide, by decide⟩

/-- Claim C9 counterexample: a body line whose first character is not `+`,
`-` or a space keeps the whole line as its text — the leading character is
not stripped.  For the block `@@ -1 +1 @@\nxabc` the parsed line text is
`xabc`, not the remainder `abc` the claim predicts. -/
theorem c9_counterexample :
    (parseDiffHunk "@@ -1 +1 @@\nxabc").map (fun h => h.lines.map DiffLine.text) =
      some ["xabc"] ∧
    (parseDiffHunk "@@ -1 +1 @@\nxabc").map (fun h => h.lines.map DiffLine.text) ≠
      some ["abc"] := by
  refine ⟨by decide, by decide⟩

/-- Claim C9 (amended): for a non-empty body line the first character
selects the tag (`+` Added, `-` Removed, anything else Context); the text
is the remainder after the first character when that character is `+`,
`-` or a space, and the whole line otherwise; Added lines get no old
number and Removed lines no new number. -/
theorem c9_tag_text_amended (raw : String) (rest : List String) (o n : Nat)
    (hraw : raw ≠ "") :
    (parseLines o n (raw :: rest)).head? = some
      ⟨if firstChar raw = '+' then '+' else if firstChar raw = '-' then '-' else ' ',
       if firstChar raw = '+' ∨ firstChar raw = '-' ∨ firstChar raw = ' '
         then strTail raw else raw,
       if firstChar raw = '+' then none else some o,
       if firstChar raw = '-' then none else some n⟩ := by
  simp only [parseLines, if_neg hraw]
  by_cases h1 : firstChar raw = '+'
  · simp [h1]
  · by_cases h2 : firstChar raw = '-'
    · simp [h1, h2]
    · by_cases h3 : firstChar raw = ' '
      · simp [h1, h2, h3]
      · simp [h1, h2, h3]

/-- Witness for the amended C9 at the line `xabc`. -/
theorem c9_witness :
    (parseLines 1 1 ["xabc"]).head? = some ⟨' ', "xabc", some 1, some 1⟩ :=
  c9_tag_text_amended "xabc" [] 1 1 (by decide)

/-- Claim C10 counterexample: key stringification is not transparent to the
picker when a table value is 0.  With the int-keyed table `{1: 0}` the
picker returns 0 (found via the `get(new_no)` fallback), but with the
string-keyed table `{"1": 0}` the Python `or` treats the looked-up 0 as
falsy, the int fallback misses, and the picker returns none. -/
theorem c10_counterexample :
    chooseWithIntTable ⟨"@@ -1,0 +1,1 @@", 1, 0, 1, 1, [⟨'+', "x", none, some 1⟩]⟩
      [(1, 0)] = some 0 ∧
    chooseWithStrTable ⟨"@@ -1,0 +1,1 @@", 1, 0, 1, 1, [⟨'+', "x", none, some 1⟩]⟩
      (stringifyKeys [(1, 0)]) = none := by
  refine ⟨by decide, by decide⟩

/-- Claim C10 (amended): the picker is invariant under replacing the
table's int keys by their decimal-string forms, provided every stored
position is nonzero (as real positions, which start at 1, always are). -/
theorem c10_key_roundtrip_amended (h : Hunk) (t : List (Nat × Int))
    (hnz : ∀ e ∈ t, e.2 ≠ 0) :
    chooseWithIntTable h t = chooseWithStrTable h (stringifyKeys t) := by
  have hl : (lookupPos (fun _ => none) (dictGetNat t)) =
      (lookupPos (fun k => dictGetStr (stringifyKeys t) (natToDecStr k)) (fun _ => none)) := by
    funext m
    show pyOrInt none (dictGetNat t m) =
      pyOrInt (dictGetStr (stringifyKeys t) (natToDecStr m)) none
    rw [dictGetStr_stringify]
    cases hv : dictGetNat t m with
    | none => rfl
    | some v =>
      have hmem : ∃ e ∈ t, e.2 = v := by
        unfold dictGetNat at hv
        cases hf : t.reverse.find? (fun e => e.1 == m) with
        | none => rw [hf] at hv; simp at hv
        | some e =>
          rw [hf] at hv
          have hv2 : some e.2 = some v := hv
          injection hv2 with hv2
          exact ⟨e, List.mem_reverse.1 (List.mem_of_find?_eq_some hf), hv2⟩
      obtain ⟨e, he, hev⟩ := hmem
      have hv0 : v ≠ 0 := hev ▸ hnz e he
      show pyOrInt none (some v) = pyOrInt (some v) none
      simp [pyOrInt, hv0]
  unfold chooseWithIntTable chooseWithStrTable choosePositionForHunk
  rw [hl]

/-- Witness for the amended C10 with the table `{2: 5}`. -/
theorem c10_witness :
    chooseWithIntTable ⟨"@@ -1,1 +2,1 @@", 1, 1, 2, 1, [⟨'+', "y", none, some 2⟩]⟩
      [(2, 5)] =
    chooseWithStrTable ⟨"@@ -1,1 +2,1 @@", 1, 1, 2, 1, [⟨'+', "y", none, some 2⟩]⟩
      (stringifyKeys [(2, 5)]) :=
  c10_key_roundtrip_amended ⟨"@@ -1,1 +2,1 @@", 1, 1, 2, 1, [⟨'+', "y", none, some 2⟩]⟩
    [(2, 5)] (by decide)

end LiteReviewer
